import Mathlib

/-!
Verification of the screw_data_loading preprocessing pipeline.

This file gives a shallow embedding, in Lean, of the record-to-tensor
preprocessing pipeline of the `screw_data_loading` repository and proves
properties of it.  Numeric channel values are modelled as rationals,
Python dictionaries with string keys as ordered association lists (Python
dictionaries preserve insertion order), numpy arrays as lists, and
operations that can raise a Python exception (KeyError, IndexError,
ValueError, StopIteration) return `Option` and yield `none` where the
original code raises.

Embedded code, by section:
* cycle counting and retention of `load/from_directory.py` (lines 133-137);
* `prep/truncating.py` (`apply_truncating`);
* `prep/padding.py` (`apply_padding` and its inner `pad_sequence`);
* `prep/equidistancing.py` (`apply_equidistancing`);
* `prep/splitting.py` (`apply_split`, `flatten`) with `random.shuffle`
  modelled as a deterministic Fisher-Yates shuffle over an explicit
  generator state, seeded exactly where the source calls `random.seed`;
* `prep/converting.py` (`apply_conversion`, `convert_to_binary`) over an
  explicit object heap, so that in-place mutation and aliasing of the
  returned container are observable.
-/

namespace ScrewData

/-- Key of the time channel (`"time"` in the source). -/
def timeKey : String := "time"

/-- A channel name used in concrete examples. -/
def torqueKey : String := "torque"

/-- A second channel name used in concrete examples. -/
def angleKey : String := "angle"

/-- The string that selects front-side truncation or padding. -/
def preKey : String := "pre"

/-- The string that selects back-side truncation or padding. -/
def postKey : String := "post"

/-- The label value that binarizes to 1 (`"NOK"`). -/
def nokLabel : String := "NOK"

/-- The `result_format` directive that binarizes labels. -/
def binaryKey : String := "binary"

/-- The `result_format` directive that leaves labels untouched. -/
def rawKey : String := "raw"

/-- The `return_format` directive for dense arrays. -/
def numpyKey : String := "numpy_array"

/-- The `return_format` directive for nested lists. -/
def nestedKey : String := "nested_list"

/-- A record id used in concrete examples. -/
def idA : String := "a"

/-- A channel map, the value of `cycle_values` in the source: a Python
dictionary from channel name to list of numbers, modelled as an ordered
association list. -/
abbrev ChanMap : Type := List (String × List ℚ)

/-- Lookup in an ordered association list; `none` models a Python
KeyError / absent key. -/
def lookupKey {β : Type*} (k : String) : List (String × β) → Option β
  | [] => none
  | (k0, v) :: rest => if k0 = k then some v else lookupKey k rest

/-- Assignment `d[k] = v` on an ordered association list: Python
dictionaries keep the position of an existing key and append a new one. -/
def setKey {β : Type*} (l : List (String × β)) (k : String) (v : β) :
    List (String × β) :=
  match l with
  | [] => [(k, v)]
  | (k0, v0) :: rest =>
    if k0 = k then (k0, v) :: rest else (k0, v0) :: setKey rest k v

/-! ### Cycle counting (`from_directory.py`, lines 133-137)

The loader keeps `all_cycle_counts : Dict[str, int]`; for each enumerated
record it executes
`all_cycle_counts[file_id] = all_cycle_counts.get(file_id, 0) + 1`
and retains the record iff
`all_cycle_counts[file_id] in tightening_cycles`.
(The `or tightening_cycles == "all"` alternative is dead in practice: the
validation layer `check_and_update_cycles` always expands `"all"` to the
list `[1, ..., 50]` before `from_directory` runs, and with a string
selection the preceding membership test would itself raise a TypeError.)
So the selection reaching this code is always a list of integers. -/

/-- Reading `all_cycle_counts.get(file_id, 0)` from the counter map. -/
def lookupCount (counts : List (String × Nat)) (id : String) : Nat :=
  match counts with
  | [] => 0
  | (k, v) :: rest => if k = id then v else lookupCount rest id

/-- Writing `all_cycle_counts[file_id] = v` into the counter map. -/
def setCount (counts : List (String × Nat)) (id : String) (v : Nat) :
    List (String × Nat) :=
  match counts with
  | [] => [(id, v)]
  | (k, w) :: rest =>
    if k = id then (k, v) :: rest else (k, w) :: setCount rest id v

/-- The per-record value of `all_cycle_counts[file_id]` right after the
increment, for each record id in source-enumeration order. -/
def derivedCyclesGo (counts : List (String × Nat)) : List String → List Nat
  | [] => []
  | id :: rest =>
    (lookupCount counts id + 1) ::
      derivedCyclesGo (setCount counts id (lookupCount counts id + 1)) rest

/-- Derived cycle value of every enumerated record, in order. -/
def derivedCycles (ids : List String) : List Nat :=
  derivedCyclesGo [] ids

/-- Outcome of the retention test
`all_cycle_counts[file_id] in tightening_cycles` for every enumerated
record, in order. -/
def retainFlagsGo (counts : List (String × Nat)) (cycles : List Nat) :
    List String → List Bool
  | [] => []
  | id :: rest =>
    decide (lookupCount counts id + 1 ∈ cycles) ::
      retainFlagsGo (setCount counts id (lookupCount counts id + 1)) cycles rest

/-- Whether each enumerated record is retained by the cycle filter. -/
def retainFlags (ids : List String) (cycles : List Nat) : List Bool :=
  retainFlagsGo [] cycles ids

/-! ### Truncating (`prep/truncating.py`) -/

/-- The inner `truncate_sequence`: position `"pre"` keeps the last
`target_length` elements (`seq[-target_length:]`, which for a zero target
degenerates to the whole sequence because `seq[-0:]` is `seq[0:]`), any
other position keeps the first `target_length` elements
(`seq[:target_length]`). -/
def truncateSequence (seq : List ℚ) (target : Nat) (pos : String) : List ℚ :=
  if pos = preKey then
    if target = 0 then seq else seq.drop (seq.length - target)
  else
    seq.take target

/-- The body of `apply_truncating`: truncate every channel, and report the
length of the first channel before and after.  `none` models the
StopIteration raised by `next(iter(...))` on an empty dictionary. -/
def applyTruncating (cv : ChanMap) (target : Nat) (pos : String) :
    Option (ChanMap × Nat × Nat) :=
  match cv with
  | [] => none
  | (k0, v0) :: rest =>
    let truncated : ChanMap :=
      ((k0, v0) :: rest).map (fun e => (e.1, truncateSequence e.2 target pos))
    some (truncated, v0.length, (truncateSequence v0 target pos).length)

/-! ### Padding (`prep/padding.py`) -/

/-- The inner `pad_sequence`: `pad_len = target_length - len(seq)` is an
integer that may be negative, and `np.pad` raises a ValueError on a
negative pad width (modelled as `none`); otherwise the padding value is
inserted in front (`"pre"`) or behind (any other position). -/
def padSequence (seq : List ℚ) (target : Nat) (padVal : ℚ) (padPos : String) :
    Option (List ℚ) :=
  let padLen : ℤ := (target : ℤ) - seq.length
  if padLen < 0 then none
  else if padPos = preKey then
    some (List.replicate padLen.toNat padVal ++ seq)
  else
    some (seq ++ List.replicate padLen.toNat padVal)

/-- The dictionary comprehension applying `pad_sequence` to every channel;
the first failing entry propagates the error. -/
def padEntries (cv : ChanMap) (target : Nat) (padVal : ℚ) (padPos : String) :
    Option ChanMap :=
  match cv with
  | [] => some []
  | (k, v) :: rest =>
    match padSequence v target padVal padPos with
    | none => none
    | some w => (padEntries rest target padVal padPos).map (fun r => (k, w) :: r)

/-- The synthetic time grid `np.linspace(0, (n - 1) * 0.0012, n)`, which
equals `[i * 0.0012 for i in range(n)]`; `0.0012 = 3/2500`. -/
def linspaceGrid (n : Nat) : List ℚ :=
  (List.range n).map (fun (i : Nat) => (i : ℚ) * (3 / 2500))

/-- The body of `apply_padding`: record the initial length of the first
channel, pad every channel, overwrite the `"time"` entry with the
synthetic grid, and report the length of the first resulting channel.
`none` models StopIteration on an empty dictionary or the `np.pad`
ValueError. -/
def applyPadding (cv : ChanMap) (padVal : ℚ) (padPos : String) (target : Nat) :
    Option (ChanMap × Nat × Nat) :=
  match cv with
  | [] => none
  | (k0, v0) :: rest =>
    match padEntries ((k0, v0) :: rest) target padVal padPos with
    | none => none
    | some padded =>
      let padded2 := setKey padded timeKey (linspaceGrid target)
      match padded2 with
      | [] => some (padded2, v0.length, 0)
      | (_, w0) :: _ => some (padded2, v0.length, w0.length)

/-! ### Equidistancing (`prep/equidistancing.py`) -/

/-- Minimum of a numpy array (`arr.min()`); the source only evaluates it
on non-empty arrays, where numpy would raise otherwise. -/
def listMin : List ℚ → ℚ
  | [] => 0
  | x :: xs => xs.foldl min x

/-- Maximum of a numpy array (`arr.max()`). -/
def listMax : List ℚ → ℚ
  | [] => 0
  | x :: xs => xs.foldl max x

/-- The sorted array of distinct values returned by `np.unique`. -/
def uniqueSorted (l : List ℚ) : List ℚ :=
  List.insertionSort (· ≤ ·) l.dedup

/-- Index of the first occurrence of `v` in `l`; for `v` a member of `l`
this is what `np.unique(..., return_index=True)` reports for the unique
value `v`. -/
def firstIdxOf (l : List ℚ) (v : ℚ) : Nat :=
  l.findIdx (fun x => decide (x = v))

/-- The `unique_indices` array of `np.unique(time_values,
return_index=True)`: for each distinct time value in sorted order, the
index of its first occurrence in the original array. -/
def uniqueIndices (l : List ℚ) : List Nat :=
  (uniqueSorted l).map (firstIdxOf l)

/-- Fancy indexing `np.array(values)[idx]` (and equally the comprehension
`[values[i] for i in idx]`): select the elements at the given indices,
failing (IndexError) on the first index out of bounds. -/
def gatherIdx {α : Type*} (values : List α) (idx : List Nat) :
    Option (List α) :=
  match idx with
  | [] => some []
  | i :: is =>
    match values.get? i with
    | none => none
    | some v => (gatherIdx values is).map (fun r => v :: r)

/-- The `mean_values_dict` comprehension: every non-time channel reduced
to the values sitting at the first-occurrence indices of the distinct
time values. -/
def meanValues (cv : ChanMap) (idx : List Nat) : Option ChanMap :=
  match cv with
  | [] => some []
  | (k, v) :: rest =>
    if k = timeKey then meanValues rest idx
    else
      match gatherIdx v idx with
      | none => none
      | some g => (meanValues rest idx).map (fun r => (k, g) :: r)

/-- The grid `np.arange(start, stop, step)` for a positive step: the
values `start + i * step` for `0 ≤ i < ⌈(stop - start) / step⌉`.  The
source only ever calls it with the positive step `interval_length`; the
descending mode of numpy is unused and modelled as the empty grid. -/
def arangeQ (start stop step : ℚ) : List ℚ :=
  if 0 < step then
    (List.range ⌈(stop - start) / step⌉.toNat).map
      (fun (i : Nat) => start + (i : ℚ) * step)
  else []

/-- One evaluation of `np.interp` at point `xv` over the strictly
increasing nodes `xp` with values `fp`: piecewise-linear interpolation
with constant extrapolation (clamping) outside the node range.  The
source guarantees `xp` and `fp` have equal positive length. -/
def interpOne (xp fp : List ℚ) (xv : ℚ) : ℚ :=
  match xp, fp with
  | [], _ => 0
  | _, [] => 0
  | [_], f0 :: _ => f0
  | x0 :: x1 :: xr, f0 :: fr =>
    if xv ≤ x0 then f0
    else
      match fr with
      | [] => f0
      | f1 :: fr2 =>
        if xv ≤ x1 then f0 + (f1 - f0) * (xv - x0) / (x1 - x0)
        else interpOne (x1 :: xr) (f1 :: fr2) xv

/-- `np.interp(xs, xp, fp)` vectorized over the evaluation points. -/
def npInterp (xs xp fp : List ℚ) : List ℚ :=
  xs.map (interpOne xp fp)

/-- The body of `apply_equidistancing`: take the `"time"` channel
(KeyError if absent, and `min`/`max` raise on an empty array, both
modelled as `none`), deduplicate it keeping first-occurrence indices,
build the grid `np.arange(min, max + interval, interval)`, reduce every
non-time channel to the first-occurrence values (IndexError, hence
`none`, if a channel is too short), interpolate each onto the grid, and
store the grid itself as the new `"time"` channel, appended last as in
the source.  Returns the map with the initial and final lengths. -/
def applyEquidistancing (cv : ChanMap) (ivl : ℚ) :
    Option (ChanMap × Nat × Nat) :=
  match lookupKey timeKey cv with
  | none => none
  | some tv =>
    match tv with
    | [] => none
    | t0 :: tr =>
      let tvs := t0 :: tr
      let uts := uniqueSorted tvs
      let grid := arangeQ (listMin uts) (listMax uts + ivl) ivl
      match meanValues cv (uniqueIndices tvs) with
      | none => none
      | some mvd =>
        some (mvd.map (fun e => (e.1, npInterp grid uts e.2))
                ++ [(timeKey, grid)],
              tvs.length, grid.length)

/-! ### Splitting (`prep/splitting.py`)

`apply_split` drives Python's global Mersenne-Twister generator: it calls
`random.seed(split_seed)` when a seed is given and then
`random.shuffle(indices)`.  The generator is modelled as an explicit
`Nat` state threaded through the shuffle, with a concrete linear
congruential step standing in for the (implementation-defined) generator;
`random.seed` replaces the whole incoming state by a pure function of the
seed, which is exactly what makes the shuffle independent of any prior
run state.  `random.shuffle` is the standard Fisher-Yates loop
`for i in reversed(range(1, n)): j = randbelow(i + 1); swap x[i], x[j]`. -/

/-- One step of the stand-in pseudo-random generator. -/
def rngNext (s : Nat) : Nat :=
  (6364136223846793005 * s + 1442695040888963407) % (2 ^ 64)

/-- `random.seed(seed)`: the generator state after seeding is a pure
function of the seed alone. -/
def seedRng (seed : ℤ) : Nat :=
  (seed % (2 ^ 64 : ℤ)).toNat

/-- Draw a value in `[0, k)` (`randbelow(k)`), returning the new state. -/
def randBelow (s : Nat) (k : Nat) : Nat × Nat :=
  let s2 := rngNext s
  (s2 / 2 ^ 33 % k, s2)

/-- Swap the elements at positions `i` and `j` of a list; out-of-range
positions leave the list unchanged (the shuffle only uses in-range
positions). -/
def listSwap {α : Type*} (l : List α) (i j : Nat) : List α :=
  match l.get? i, l.get? j with
  | some a, some b => (l.set i b).set j a
  | _, _ => l

/-- One iteration of the Fisher-Yates loop: `j = randbelow(i + 1)` and
swap positions `i` and `j`. -/
def shuffleStep {α : Type*} (acc : List α × Nat) (i : Nat) : List α × Nat :=
  let p := randBelow acc.2 (i + 1)
  (listSwap acc.1 i p.1, p.2)

/-- `random.shuffle(x)`: Fisher-Yates over the explicit generator state,
iterating `i` over `reversed(range(1, len(x)))`. -/
def shuffleList {α : Type*} (st : Nat) (l : List α) : List α × Nat :=
  ((List.range' 1 (l.length - 1)).reverse).foldl shuffleStep (l, st)

/-- `[[values[i] for i in indices] for values in data]`: every sublist of
the data reordered by one and the same index list. -/
def shuffleRows {α : Type*} (data : List (List α)) (idx : List Nat) :
    Option (List (List α)) :=
  match data with
  | [] => some []
  | r :: rs =>
    match gatherIdx r idx with
    | none => none
    | some g => (shuffleRows rs idx).map (fun t => g :: t)

/-- The `flatten` helper of `splitting.py`: it only converts numpy arrays
back to Python lists, so on the list-of-lists model it maps the identity
over every element. -/
def flattenData {α : Type*} (data : List (List α)) : List (List α) :=
  data.map (fun sub => sub.map (fun x => x))

/-- Return shape of `apply_split`: a 4-tuple
`(x_train, x_test, y_train, y_test)` when a ratio in (0, 1) is given,
otherwise a 2-tuple `(x_values, y_values)`. -/
inductive SplitResult (α : Type*) : Type _
  | split4 : List (List α) → List (List α) → List α → List α → SplitResult α
  | split2 : List (List α) → List α → SplitResult α

/-- The generator state actually used by the shuffle: `random.seed`
replaces the incoming state when a seed is given. -/
def seedState (seed : Option ℤ) (st : Nat) : Nat :=
  match seed with
  | some s => seedRng s
  | none => st

/-- The body of `apply_split`.  `data[0]` raises an IndexError on an
empty data list (`none`); the comprehension `values[i]` raises when a
sublist is shorter than the first one (`none`).  The split index is
`int(data_length * split_ratio)`, i.e. the floor for non-negative
products.  The generator state is seeded first when a seed is given and
returned alongside the result. -/
def applySplit {α : Type*} (data : List (List α)) (sr : Option ℚ)
    (seed : Option ℤ) (st : Nat) : Option (SplitResult α × Nat) :=
  let st0 : Nat := seedState seed st
  match data with
  | [] => none
  | d :: ds =>
    let n := d.length
    let p := shuffleList st0 (List.range n)
    match shuffleRows (d :: ds) p.1 with
    | none => none
    | some shuffled =>
      let flat := flattenData shuffled
      match sr with
      | some r =>
        if 0 < r ∧ r < 1 then
          let k := ⌊(n : ℚ) * r⌋.toNat
          let training := flat.map (fun v => v.take k)
          let testing := flat.map (fun v => v.drop k)
          some (.split4 training.dropLast testing.dropLast
                  (training.getLastD []) (testing.getLastD []), p.2)
        else
          some (.split2 flat.dropLast (flat.getLastD []), p.2)
      | none =>
        some (.split2 flat.dropLast (flat.getLastD []), p.2)

/-! ### Converting (`prep/converting.py`)

`apply_conversion` mutates its argument: `data[2] = ...` rebinds entries
of the container object itself.  To make mutation and aliasing
observable, containers live on an explicit heap of list objects addressed
by naturals; `apply_conversion` receives an address and returns the
(possibly updated) heap together with the address of the returned
container.  The `numpy_array` branch builds a fresh object (a new list of
arrays), so it allocates; the `nested_list` branch returns the input
address itself. -/

/-- A Python value as it occurs in the converted containers: a string
label, a number, or a nested sequence. -/
inductive PyVal : Type
  | str : String → PyVal
  | num : ℚ → PyVal
  | arr : List PyVal → PyVal

/-- The comparison `x == "NOK"` of `convert_to_binary`; comparison of a
non-string against a string is simply unequal in Python. -/
def isNOK : PyVal → Bool
  | .str s => s = "NOK"
  | _ => false

/-- `convert_to_binary`: map `"NOK"` to 1 and anything else to 0. -/
def convertToBinary (l : List PyVal) : List PyVal :=
  l.map (fun x => if isNOK x then .num 1 else .num 0)

/-- The object heap: container objects (lists of sublists) addressed by
naturals, plus the next free address. -/
structure Heap : Type where
  mem : Nat → List (List PyVal)
  next : Nat

/-- The body of `apply_conversion` on the heap model.  With
`result_format = "binary"` the container at `addr` is mutated in place:
entries 2 and 3 are binarized when the container has four entries,
otherwise entry 1 is (raising IndexError, hence `none`, when it does not
exist); `"raw"` leaves it alone; any other directive raises ValueError.
Then `"numpy_array"` allocates and returns a fresh container with the
same entries while `"nested_list"` returns the input address itself, and
any other directive raises ValueError. -/
def applyConversion (h : Heap) (addr : Nat)
    (resultFormat returnFormat : String) : Option (Heap × Nat) :=
  let data := h.mem addr
  let step1 : Option (List (List PyVal)) :=
    if resultFormat = binaryKey then
      if data.length = 4 then
        let d1 := data.set 2 (convertToBinary (data.getD 2 []))
        some (d1.set 3 (convertToBinary (d1.getD 3 [])))
      else if 2 ≤ data.length then
        some (data.set 1 (convertToBinary (data.getD 1 [])))
      else none
    else if resultFormat = rawKey then some data
    else none
  match step1 with
  | none => none
  | some d2 =>
    let h1 : Heap := ⟨fun a => if a = addr then d2 else h.mem a, h.next⟩
    if returnFormat = numpyKey then
      some (⟨fun a => if a = h1.next then d2 else h1.mem a, h1.next + 1⟩,
            h1.next)
    else if returnFormat = nestedKey then
      some (h1, addr)
    else none

/-! ### Spec-side definition for the grid refinement check -/

/-- Modelled from the spec wording, for comparison with the code: the
grid consisting of every multiple of the interval length lying between
the minimum and the maximum time value inclusive. -/
def specTimeGrid (ivl lo hi : ℚ) : List ℚ :=
  ((List.range (⌊hi / ivl⌋.toNat + 1)).map
      (fun (m : Nat) => (m : ℚ) * ivl)).filter
    (fun x => decide (lo ≤ x) && decide (x ≤ hi))

/-! ## Lemmas and theorems -/

/-! ### C1: cycle derivation and retention -/

lemma lookupCount_setCount (counts : List (String × Nat)) (a : String)
    (v : Nat) (id : String) :
    lookupCount (setCount counts a v) id
      = if a = id then v else lookupCount counts id := by
  induction counts with
  | nil =>
    by_cases h : a = id <;> simp [setCount, lookupCount, h]
  | cons e rest ih =>
    obtain ⟨k, w⟩ := e
    by_cases hk : k = a
    · subst hk
      by_cases h : k = id <;> simp [setCount, lookupCount, h]
    · by_cases h1 : k = id
      · subst h1
        have h2 : ¬ a = k := fun hh => hk hh.symm
        simp [setCount, lookupCount, hk, h2]
      · simp [setCount, lookupCount, hk, h1, ih]

lemma derivedCyclesGo_get? :
    ∀ (ids : List String) (counts : List (String × Nat)) (i : Nat)
      (id : String), ids.get? i = some id →
      (derivedCyclesGo counts ids).get? i
        = some (lookupCount counts id + (ids.take (i + 1)).count id) := by
  intro ids
  induction ids with
  | nil => intro counts i id h; simp at h
  | cons a rest ih =>
    intro counts i id h
    cases i with
    | zero =>
      rw [List.get?_cons_zero] at h
      cases h
      simp [derivedCyclesGo, List.count_cons]
    | succ i2 =>
      rw [List.get?_cons_succ] at h
      have hrec := ih (setCount counts a (lookupCount counts a + 1)) i2 id h
      rw [show derivedCyclesGo counts (a :: rest)
            = (lookupCount counts a + 1) ::
                derivedCyclesGo
                  (setCount counts a (lookupCount counts a + 1)) rest from rfl]
      rw [List.get?_cons_succ, hrec, lookupCount_setCount]
      have hcnt : ((a :: rest).take (i2 + 1 + 1)).count id
          = (rest.take (i2 + 1)).count id + if a == id then 1 else 0 := by
        simp [List.count_cons]
      rw [hcnt]
      by_cases hai : a = id
      · subst hai
        simp
        omega
      · have : (a == id) = false := by
          simpa using hai
        simp [hai, this]

lemma retainFlagsGo_eq_map (ids : List String) (counts : List (String × Nat))
    (cycles : List Nat) :
    retainFlagsGo counts cycles ids
      = (derivedCyclesGo counts ids).map (fun c => decide (c ∈ cycles)) := by
  induction ids generalizing counts with
  | nil => simp [retainFlagsGo, derivedCyclesGo]
  | cons a rest ih => simp [retainFlagsGo, derivedCyclesGo, ih]

/-- Claim C1, amended: for every source enumeration and every record id,
the k-th record (1-indexed) in enumeration order bearing that id is
assigned the raw occurrence count k — not `ceil(k/2)` — and a record is
retained exactly when this count lies in the selected cycle list (the
validated selection reaching the loader is always a list; an unrestricted
selection arrives as the expanded list `[1, ..., 50]`). -/
theorem cycle_rank_retention (ids : List String) (cycles : List Nat)
    (i : Nat) (id : String) (h : ids.get? i = some id) :
    (derivedCycles ids).get? i = some ((ids.take (i + 1)).count id) ∧
    (retainFlags ids cycles).get? i
      = some (decide ((ids.take (i + 1)).count id ∈ cycles)) := by
  have h1 := derivedCyclesGo_get? ids [] i id h
  rw [show lookupCount [] id = 0 from rfl, Nat.zero_add] at h1
  have h2 : (derivedCycles ids).get? i
      = some ((ids.take (i + 1)).count id) := h1
  refine ⟨h2, ?_⟩
  rw [retainFlags, retainFlagsGo_eq_map, List.get?_map, h1]
  rfl

/-- Claim C1 witness: the second of three records sharing one id is
assigned count 2 and is retained by the selection `[2]`. -/
theorem cycle_rank_retention_witness :
    (derivedCycles [idA, idA, idA]).get? 1
      = some (([idA, idA, idA].take 2).count idA) ∧
    (retainFlags [idA, idA, idA] [2]).get? 1
      = some (decide (([idA, idA, idA].take 2).count idA ∈ [2])) :=
  cycle_rank_retention [idA, idA, idA] [2] 1 idA (by decide)

/-- Claim C1 counterexample: an id occurring 6 times yields the derived
sequence `[1, 2, 3, 4, 5, 6]`, not `[1, 1, 2, 2, 3, 3]`, and with
selected cycles `[1]` the second record of the pair is dropped although
`ceil(2/2) = 1` is selected. -/
theorem cycle_pairing_counterexample :
    derivedCycles [idA, idA, idA, idA, idA, idA] = [1, 2, 3, 4, 5, 6] ∧
    derivedCycles [idA, idA, idA, idA, idA, idA] ≠ [1, 1, 2, 2, 3, 3] ∧
    retainFlags [idA, idA] [1] = [true, false] := by decide

/-! ### C2: padding of sequences at or above the target length -/

/-- Claim C2, amended: for every channel map and every sequence in it
whose length is exactly `target_length`, `pad_sequence` performs no
padding — the pad length is zero and the sequence is returned unchanged;
but for a sequence strictly longer than `target_length` the pad length is
negative and `np.pad` raises instead of returning the sequence. -/
theorem pad_noop_or_error (cv : ChanMap) (k : String) (seq : List ℚ)
    (target : Nat) (padVal : ℚ) (padPos : String)
    (hmem : (k, seq) ∈ cv) :
    (seq.length = target → padSequence seq target padVal padPos = some seq) ∧
    (target < seq.length → padSequence seq target padVal padPos = none) := by
  refine ⟨fun hlen => ?_, fun hlt => ?_⟩
  · have h0 : ((target : ℤ) - (seq.length : ℤ)) = 0 := by omega
    by_cases hp : padPos = preKey <;> simp [padSequence, h0, hp]
  · have h0 : ((target : ℤ) - (seq.length : ℤ)) < 0 := by omega
    simp [padSequence, h0]

/-- Claim C2 witness: a sequence of length 2 padded to target 2 is
returned unchanged. -/
theorem pad_noop_witness :
    padSequence [(5 : ℚ), 6] 2 0 postKey = some [5, 6] :=
  (pad_noop_or_error [(torqueKey, [5, 6])] torqueKey [5, 6] 2 0 postKey
    (by decide)).1 rfl

/-- Claim C2 counterexample: the sequence `[3, 4]` has length ≥ the
target 1, yet `pad_sequence` fails on it (negative pad width) rather than
returning its elements. -/
theorem pad_negative_counterexample :
    1 ≤ ([(3 : ℚ), 4]).length ∧
    padSequence [(3 : ℚ), 4] 1 0 postKey = none := by
  refine ⟨by decide, ?_⟩
  have h0 : ((1 : ℤ) - (([(3 : ℚ), 4]).length : ℤ)) < 0 := by decide
  simp [padSequence, h0]

/-! ### C5: truncation followed by padding yields the target length -/

lemma padSequence_length (seq : List ℚ) (target : Nat) (padVal : ℚ)
    (padPos : String) (w : List ℚ)
    (h : padSequence seq target padVal padPos = some w) :
    w.length = target := by
  unfold padSequence at h
  by_cases h0 : ((target : ℤ) - (seq.length : ℤ)) < 0
  · simp [h0] at h
  · have hle : seq.length ≤ target := by omega
    have htn : ((target : ℤ) - (seq.length : ℤ)).toNat
        = target - seq.length := by omega
    by_cases hp : padPos = preKey
    · simp [h0, hp] at h
      rw [← h]
      simp [htn]
      omega
    · simp [h0, hp] at h
      rw [← h]
      simp [htn]
      omega

lemma padEntries_length (cv : ChanMap) (target : Nat) (padVal : ℚ)
    (padPos : String) (res : ChanMap)
    (h : padEntries cv target padVal padPos = some res) :
    ∀ e ∈ res, e.2.length = target := by
  induction cv generalizing res with
  | nil =>
    unfold padEntries at h
    cases h
    intro e he
    simp at he
  | cons e0 rest ih =>
    obtain ⟨k, v⟩ := e0
    unfold padEntries at h
    cases hps : padSequence v target padVal padPos with
    | none => rw [hps] at h; simp at h
    | some w =>
      rw [hps] at h
      cases hrest : padEntries rest target padVal padPos with
      | none => rw [hrest] at h; simp at h
      | some r2 =>
        rw [hrest] at h
        simp at h
        intro e he
        rw [← h] at he
        rcases List.mem_cons.mp he with h1 | h2
        · rw [h1]
          exact padSequence_length v target padVal padPos w hps
        · exact ih r2 hrest e h2

lemma mem_setKey {β : Type*} (l : List (String × β)) (k : String) (v : β)
    (e : String × β) (h : e ∈ setKey l k v) : e ∈ l ∨ e.2 = v := by
  induction l with
  | nil =>
    unfold setKey at h
    simp at h
    right
    rw [h]
  | cons e0 rest ih =>
    obtain ⟨k0, v0⟩ := e0
    unfold setKey at h
    by_cases hk : k0 = k
    · simp [hk] at h
      rcases h with h1 | h2
      · right; rw [h1]
      · left; exact List.mem_cons_of_mem _ h2
    · simp [hk] at h
      rcases h with h1 | h2
      · left; rw [h1]; exact List.mem_cons_self _ _
      · rcases ih h2 with h3 | h4
        · left; exact List.mem_cons_of_mem _ h3
        · right; exact h4

lemma linspaceGrid_length (n : Nat) : (linspaceGrid n).length = n := by
  rw [linspaceGrid, List.length_map, List.length_range]

lemma applyPadding_shape (cv : ChanMap) (pval : ℚ) (ppos : String)
    (target : Nat) (out : ChanMap) (i2 f2 : Nat)
    (h : applyPadding cv pval ppos target = some (out, i2, f2)) :
    ∃ padded, padEntries cv target pval ppos = some padded ∧
      out = setKey padded timeKey (linspaceGrid target) := by
  cases cv with
  | nil => simp [applyPadding] at h
  | cons e0 rest =>
    obtain ⟨k0, v0⟩ := e0
    cases hpe : padEntries ((k0, v0) :: rest) target pval ppos with
    | none => simp [applyPadding, hpe] at h
    | some padded =>
      refine ⟨padded, rfl, ?_⟩
      cases hs : setKey padded timeKey (linspaceGrid target) with
      | nil =>
        simp [applyPadding, hpe, hs] at h
        rw [← h.1]
      | cons p ps =>
        simp [applyPadding, hpe, hs] at h
        rw [← h.1]

/-- Claim C5: for every record, truncating every channel to
`target_length` and then padding with the same `target_length` leaves
every channel — including the regenerated synthetic time channel — with
exactly `target_length` elements. -/
theorem truncate_pad_target_length (cv cvt out : ChanMap) (target : Nat)
    (cpos ppos : String) (pval : ℚ) (i1 f1 i2 f2 : Nat)
    (htarget : 0 < target)
    (h1 : applyTruncating cv target cpos = some (cvt, i1, f1))
    (h2 : applyPadding cvt pval ppos target = some (out, i2, f2)) :
    ∀ e ∈ out, e.2.length = target := by
  obtain ⟨padded, hpe, hout⟩ :=
    applyPadding_shape cvt pval ppos target out i2 f2 h2
  intro e he
  rw [hout] at he
  rcases mem_setKey padded timeKey (linspaceGrid target) e he with hm | hm
  · exact padEntries_length cvt target pval ppos padded hpe e hm
  · rw [hm]
    exact linspaceGrid_length target

/-- Claim C5 witness: channels of lengths 3 truncated to 2 and padded to
2; the regenerated time channel of the result has exactly 2 elements. -/
theorem truncate_pad_target_length_witness :
    ([(0 : ℚ), 3 / 2500]).length = 2 :=
  truncate_pad_target_length
    [(timeKey, [0, 1, 2]), (torqueKey, [7, 8, 9])]
    [(timeKey, [0, 1]), (torqueKey, [7, 8])]
    [(timeKey, [0, 3 / 2500]), (torqueKey, [7, 8])]
    2 postKey postKey 0 3 2 2 2 (by decide) (by rfl)
    (by norm_num [applyPadding, padEntries, padSequence, setKey,
      linspaceGrid, timeKey, torqueKey, postKey, preKey, List.range_succ])
    (timeKey, [0, 3 / 2500]) (List.mem_cons_self _ _)

/-! ### C9: deduplication keeps first occurrences -/

lemma get?_some_lt {α : Type*} {l : List α} {n : Nat} {a : α}
    (h : l.get? n = some a) : n < l.length := by
  by_contra hn
  rw [List.get?_eq_none.mpr (by omega)] at h
  exact Option.noConfusion h

lemma firstIdxOf_spec (l : List ℚ) (v : ℚ) (hv : v ∈ l) :
    l.get? (firstIdxOf l v) = some v ∧
    ∀ i, i < firstIdxOf l v → l.get? i ≠ some v := by
  induction l with
  | nil => simp at hv
  | cons a t ih =>
    by_cases ha : a = v
    · have h0 : firstIdxOf (a :: t) v = 0 := by
        simp [firstIdxOf, List.findIdx_cons, ha]
      rw [h0]
      exact ⟨by simp [ha], fun i hi => by omega⟩
    · have hv2 : v ∈ t := by
        rcases List.mem_cons.mp hv with h | h
        · exact absurd h.symm ha
        · exact h
      have hstep : firstIdxOf (a :: t) v = firstIdxOf t v + 1 := by
        simp [firstIdxOf, List.findIdx_cons, ha]
      obtain ⟨ih1, ih2⟩ := ih hv2
      rw [hstep]
      refine ⟨by simpa using ih1, fun i hi => ?_⟩
      cases i with
      | zero =>
        simp only [List.get?_cons_zero]
        intro hcon
        exact ha (Option.some.inj hcon)
      | succ i2 =>
        rw [List.get?_cons_succ]
        exact ih2 i2 (by omega)

lemma mem_of_mem_uniqueSorted {l : List ℚ} {v : ℚ}
    (h : v ∈ uniqueSorted l) : v ∈ l := by
  unfold uniqueSorted at h
  exact List.mem_dedup.mp ((List.perm_insertionSort _ _).mem_iff.mp h)

lemma uniqueIndices_lt (l : List ℚ) : ∀ i ∈ uniqueIndices l, i < l.length := by
  intro i hi
  unfold uniqueIndices at hi
  obtain ⟨v, hv, hveq⟩ := List.mem_map.mp hi
  obtain ⟨h1, _⟩ := firstIdxOf_spec l v (mem_of_mem_uniqueSorted hv)
  rw [← hveq]
  exact get?_some_lt h1

lemma gatherIdx_isSome {α : Type*} (values : List α) (idx : List Nat)
    (h : ∀ i ∈ idx, i < values.length) :
    ∃ r, gatherIdx values idx = some r := by
  induction idx with
  | nil => exact ⟨[], rfl⟩
  | cons i is ih =>
    obtain ⟨r2, hr2⟩ := ih (fun i2 hi2 => h i2 (List.mem_cons_of_mem _ hi2))
    have hlt : i < values.length := h i (List.mem_cons_self _ _)
    refine ⟨values.get ⟨i, hlt⟩ :: r2, ?_⟩
    unfold gatherIdx
    rw [List.get?_eq_get hlt, hr2]
    rfl

lemma gatherIdx_get? {α : Type*} (values : List α) (idx : List Nat)
    (r : List α) (h : gatherIdx values idx = some r) :
    ∀ k i, idx.get? k = some i → r.get? k = values.get? i := by
  induction idx generalizing r with
  | nil => intro k i hk; simp at hk
  | cons i0 is ih =>
    intro k i hk
    unfold gatherIdx at h
    cases hv : values.get? i0 with
    | none => rw [hv] at h; simp at h
    | some v =>
      rw [hv] at h
      cases hrest : gatherIdx values is with
      | none => rw [hrest] at h; simp at h
      | some r2 =>
        rw [hrest] at h
        simp at h
        cases k with
        | zero =>
          rw [List.get?_cons_zero] at hk
          rw [← h, List.get?_cons_zero, ← Option.some.inj hk]
          exact hv.symm
        | succ k2 =>
          rw [List.get?_cons_succ] at hk
          rw [← h, List.get?_cons_succ]
          exact ih r2 hrest k2 i hk

lemma meanValues_isSome (cv : ChanMap) (idx : List Nat)
    (h : ∀ e ∈ cv, e.1 ≠ timeKey → ∀ i ∈ idx, i < e.2.length) :
    ∃ m, meanValues cv idx = some m := by
  induction cv with
  | nil => exact ⟨[], rfl⟩
  | cons e0 rest ih =>
    obtain ⟨k0, v0⟩ := e0
    obtain ⟨m2, hm2⟩ := ih (fun e he => h e (List.mem_cons_of_mem _ he))
    by_cases hk : k0 = timeKey
    · exact ⟨m2, by unfold meanValues; rw [if_pos hk]; exact hm2⟩
    · obtain ⟨g, hg⟩ := gatherIdx_isSome v0 idx
        (h (k0, v0) (List.mem_cons_self _ _) hk)
      refine ⟨(k0, g) :: m2, ?_⟩
      unfold meanValues
      rw [if_neg hk, hg, hm2]
      rfl

lemma meanValues_keys (cv : ChanMap) (idx : List Nat) (m : ChanMap)
    (hm : meanValues cv idx = some m) : ∀ e ∈ m, e.1 ≠ timeKey := by
  induction cv generalizing m with
  | nil =>
    unfold meanValues at hm
    cases hm
    intro e he
    simp at he
  | cons e0 rest ih =>
    obtain ⟨k0, v0⟩ := e0
    unfold meanValues at hm
    by_cases hk : k0 = timeKey
    · rw [if_pos hk] at hm
      exact ih m hm
    · rw [if_neg hk] at hm
      cases hg : gatherIdx v0 idx with
      | none => rw [hg] at hm; simp at hm
      | some g =>
        rw [hg] at hm
        cases hm2 : meanValues rest idx with
        | none => rw [hm2] at hm; simp at hm
        | some m2 =>
          rw [hm2] at hm
          simp at hm
          intro e he
          rw [← hm] at he
          rcases List.mem_cons.mp he with h1 | h1
          · rw [h1]; exact hk
          · exact ih m2 hm2 e h1

lemma meanValues_lookup (cv : ChanMap) (idx : List Nat) (k : String)
    (c : List ℚ) (m : ChanMap)
    (hnd : (cv.map Prod.fst).Nodup) (hmem : (k, c) ∈ cv) (hk : k ≠ timeKey)
    (hm : meanValues cv idx = some m) :
    ∃ g, gatherIdx c idx = some g ∧ lookupKey k m = some g := by
  induction cv generalizing m with
  | nil => simp at hmem
  | cons e0 rest ih =>
    obtain ⟨k0, v0⟩ := e0
    unfold meanValues at hm
    rw [List.map_cons, List.nodup_cons] at hnd
    rcases List.mem_cons.mp hmem with hme | hme
    · have hk0 : k0 = k := (congrArg Prod.fst hme).symm
      have hv0 : v0 = c := (congrArg Prod.snd hme).symm
      subst hk0
      subst hv0
      rw [if_neg hk] at hm
      cases hg : gatherIdx v0 idx with
      | none => rw [hg] at hm; simp at hm
      | some g =>
        rw [hg] at hm
        cases hm2 : meanValues rest idx with
        | none => rw [hm2] at hm; simp at hm
        | some m2 =>
          rw [hm2] at hm
          simp at hm
          refine ⟨g, rfl, ?_⟩
          rw [← hm]
          unfold lookupKey
          rw [if_pos rfl]
    · have hkrest : k ∈ rest.map Prod.fst :=
        List.mem_map.mpr ⟨(k, c), hme, rfl⟩
      have hne : k0 ≠ k := fun hkk => hnd.1 (hkk ▸ hkrest)
      by_cases hk0t : k0 = timeKey
      · rw [if_pos hk0t] at hm
        exact ih m hnd.2 hme hm
      · rw [if_neg hk0t] at hm
        cases hg0 : gatherIdx v0 idx with
        | none => rw [hg0] at hm; simp at hm
        | some g0 =>
          rw [hg0] at hm
          cases hm2 : meanValues rest idx with
          | none => rw [hm2] at hm; simp at hm
          | some m2 =>
            rw [hm2] at hm
            simp at hm
            obtain ⟨g, hg, hlk⟩ := ih m2 hnd.2 hme hm2
            refine ⟨g, hg, ?_⟩
            rw [← hm]
            unfold lookupKey
            rw [if_neg hne]
            exact hlk

/-- Claim C9: the deduplication stage of `apply_equidistancing` keeps,
for each distinct time value (in sorted order), the non-time channel
values at the index of that time value's first occurrence in the original
order — first-occurrence selection, not averaging. -/
theorem equidist_dedup_first_occ (cv : ChanMap) (tv : List ℚ) (k : String)
    (c : List ℚ) (j : Nat) (v : ℚ) (m : ChanMap)
    (htime : lookupKey timeKey cv = some tv)
    (hdup : ¬ tv.Nodup)
    (hnd : (cv.map Prod.fst).Nodup)
    (hmem : (k, c) ∈ cv) (hk : k ≠ timeKey)
    (hj : (uniqueSorted tv).get? j = some v)
    (hm : meanValues cv (uniqueIndices tv) = some m) :
    (uniqueIndices tv).get? j = some (firstIdxOf tv v) ∧
    tv.get? (firstIdxOf tv v) = some v ∧
    (∀ i, i < firstIdxOf tv v → tv.get? i ≠ some v) ∧
    ∀ g, lookupKey k m = some g → g.get? j = c.get? (firstIdxOf tv v) := by
  have hvm : v ∈ tv := mem_of_mem_uniqueSorted (List.get?_mem hj)
  obtain ⟨hfi1, hfi2⟩ := firstIdxOf_spec tv v hvm
  have hidxj : (uniqueIndices tv).get? j = some (firstIdxOf tv v) := by
    unfold uniqueIndices
    rw [List.get?_map, hj]
    rfl
  refine ⟨hidxj, hfi1, hfi2, fun g hg => ?_⟩
  obtain ⟨g0, hg0, hlk⟩ := meanValues_lookup cv (uniqueIndices tv) k c m
    hnd hmem hk hm
  have hgg : g = g0 := by
    rw [hg] at hlk
    exact Option.some.inj hlk
  rw [hgg]
  exact gatherIdx_get? c (uniqueIndices tv) g0 hg0 j (firstIdxOf tv v) hidxj

/-- Claim C9 witness: in the time channel `[1, 1, 0]` the distinct value
1 first occurs at index 0, and that index is what the dedup stage picks. -/
theorem equidist_dedup_first_occ_witness :
    ([(1 : ℚ), 1, 0]).get? (firstIdxOf [1, 1, 0] 1) = some 1 :=
  (equidist_dedup_first_occ [(timeKey, [1, 1, 0]), (torqueKey, [7, 8, 9])]
    [1, 1, 0] torqueKey [7, 8, 9] 1 1 [(torqueKey, [9, 7])]
    rfl (by decide) (by decide)
    (List.mem_cons_of_mem _ (List.mem_cons_self _ _)) (by decide)
    (by rfl) (by rfl)).2.1

/-! ### C4: tolerance of unequal channel lengths -/

lemma applyEquidistancing_shape (cv : ChanMap) (ivl : ℚ) (tv : List ℚ)
    (out : ChanMap) (a b : Nat)
    (htime : lookupKey timeKey cv = some tv) (htv : tv ≠ [])
    (happ : applyEquidistancing cv ivl = some (out, a, b)) :
    ∃ mvd, meanValues cv (uniqueIndices tv) = some mvd ∧
      out = mvd.map (fun e => (e.1,
          npInterp (arangeQ (listMin (uniqueSorted tv))
            (listMax (uniqueSorted tv) + ivl) ivl) (uniqueSorted tv) e.2))
        ++ [(timeKey, arangeQ (listMin (uniqueSorted tv))
              (listMax (uniqueSorted tv) + ivl) ivl)] ∧
      a = tv.length ∧
      b = (arangeQ (listMin (uniqueSorted tv))
            (listMax (uniqueSorted tv) + ivl) ivl).length := by
  unfold applyEquidistancing at happ
  rw [htime] at happ
  cases tv with
  | nil => exact absurd rfl htv
  | cons t0 tr =>
    cases hmv : meanValues cv (uniqueIndices (t0 :: tr)) with
    | none => simp [hmv] at happ
    | some mvd =>
      simp [hmv] at happ
      exact ⟨mvd, rfl, happ.1.symm, happ.2.1.symm, happ.2.2.symm⟩

/-- Claim C4, amended: a record with unequal channel lengths is tolerated
by `apply_equidistancing` only when every non-time channel is at least as
long as the time channel (longer channels have their surplus silently
ignored); a non-time channel shorter than the time channel can make the
first-occurrence index selection raise an IndexError, so processing does
not in general complete without error. -/
theorem equidist_tolerates_long_channels (cv : ChanMap) (tv : List ℚ)
    (ivl : ℚ)
    (htime : lookupKey timeKey cv = some tv) (htv : tv ≠ [])
    (hlen : ∀ e ∈ cv, e.1 ≠ timeKey → tv.length ≤ e.2.length) :
    (applyEquidistancing cv ivl).isSome = true := by
  obtain ⟨m, hm⟩ := meanValues_isSome cv (uniqueIndices tv)
    (fun e he hne i hi =>
      lt_of_lt_of_le (uniqueIndices_lt tv i hi) (hlen e he hne))
  unfold applyEquidistancing
  rw [htime]
  cases tv with
  | nil => exact absurd rfl htv
  | cons t0 tr =>
    simp [hm]

/-- Claim C4 witness: a record whose non-time channel is longer than its
time channel resamples without error. -/
theorem equidist_tolerates_long_channels_witness :
    (applyEquidistancing [(timeKey, [0, 3]), (angleKey, [1, 2, 5])] 1).isSome
      = true :=
  equidist_tolerates_long_channels [(timeKey, [0, 3]), (angleKey, [1, 2, 5])]
    [0, 3] 1 rfl (by decide) (by decide)

/-- Claim C4 counterexample: a record whose torque channel is shorter
than its time channel makes `apply_equidistancing` raise an IndexError
(the first-occurrence index 2 is out of bounds for a length-2 channel)
instead of completing. -/
theorem equidist_short_channel_counterexample :
    applyEquidistancing [(timeKey, [0, 1, 2]), (torqueKey, [10, 20])] 1
      = none := by rfl

/-! ### C3: structure of the equidistant grid -/

lemma foldl_min_le (xs : List ℚ) (x : ℚ) : xs.foldl min x ≤ x := by
  induction xs generalizing x with
  | nil => simp
  | cons y ys ih => exact le_trans (ih (min x y)) (min_le_left x y)

lemma le_foldl_max (xs : List ℚ) (x : ℚ) : x ≤ xs.foldl max x := by
  induction xs generalizing x with
  | nil => simp
  | cons y ys ih => exact le_trans (le_max_left x y) (ih (max x y))

lemma listMin_le_listMax (l : List ℚ) (h : l ≠ []) :
    listMin l ≤ listMax l := by
  cases l with
  | nil => exact absurd rfl h
  | cons x xs =>
    exact le_trans (foldl_min_le xs x) (le_foldl_max xs x)

lemma uniqueSorted_ne_nil {l : List ℚ} (h : l ≠ []) :
    uniqueSorted l ≠ [] := by
  unfold uniqueSorted
  intro hcon
  have hp := List.perm_insertionSort (fun a b : ℚ => a ≤ b) l.dedup
  rw [hcon] at hp
  have hd : l.dedup = [] := List.length_eq_zero.mp (by simpa using hp.length_eq.symm)
  rw [List.dedup_eq_nil] at hd
  exact h hd

lemma getLastD_map_range (f : Nat → ℚ) (N : Nat) (h : 0 < N) (d : ℚ) :
    ((List.range N).map f).getLastD d = f (N - 1) := by
  obtain ⟨M, rfl⟩ : ∃ M, N = M + 1 := ⟨N - 1, by omega⟩
  rw [List.range_succ, List.map_append]
  simp

lemma lookupKey_none_append {β : Type*} (l1 l2 : List (String × β))
    (k : String) (h : ∀ e ∈ l1, e.1 ≠ k) :
    lookupKey k (l1 ++ l2) = lookupKey k l2 := by
  induction l1 with
  | nil => simp
  | cons e es ih =>
    obtain ⟨k0, v0⟩ := e
    rw [List.cons_append]
    have heq : lookupKey k ((k0, v0) :: (es ++ l2))
        = if k0 = k then some v0 else lookupKey k (es ++ l2) := rfl
    rw [heq, if_neg (h (k0, v0) (List.mem_cons_self _ _))]
    exact ih (fun e2 he2 => h e2 (List.mem_cons_of_mem _ he2))

lemma arangeQ_props (lo hi ivl : ℚ) (hivl : 0 < ivl) (hle : lo ≤ hi) :
    arangeQ lo (hi + ivl) ivl
      = (List.range (⌈(hi + ivl - lo) / ivl⌉.toNat)).map
          (fun (i : Nat) => lo + (i : ℚ) * ivl) ∧
    (∀ x ∈ arangeQ lo (hi + ivl) ivl, lo ≤ x ∧ x < hi + ivl) ∧
    hi ≤ (arangeQ lo (hi + ivl) ivl).getLastD lo ∧
    (∀ msteps : Nat, hi = lo + (msteps : ℚ) * ivl →
      hi ∈ arangeQ lo (hi + ivl) ivl) := by
  have hx1 : (1 : ℚ) ≤ (hi + ivl - lo) / ivl := by
    rw [le_div_iff hivl]
    linarith
  have hC1 : (1 : ℤ) ≤ ⌈(hi + ivl - lo) / ivl⌉ := by
    have h2 := Int.ceil_le_ceil hx1
    rwa [Int.ceil_one] at h2
  have hN1 : 1 ≤ ⌈(hi + ivl - lo) / ivl⌉.toNat := by omega
  have hxiv : (hi + ivl - lo) / ivl * ivl = hi + ivl - lo :=
    div_mul_cancel₀ _ (ne_of_gt hivl)
  have harange : arangeQ lo (hi + ivl) ivl
      = (List.range (⌈(hi + ivl - lo) / ivl⌉.toNat)).map
          (fun (i : Nat) => lo + (i : ℚ) * ivl) := by
    unfold arangeQ
    rw [if_pos hivl]
  refine ⟨harange, ?_, ?_, ?_⟩
  · intro x hx
    rw [harange] at hx
    obtain ⟨i, hiN, rfl⟩ := List.mem_map.mp hx
    have hiN2 := List.mem_range.mp hiN
    constructor
    · have h0 : (0 : ℚ) ≤ (i : ℚ) * ivl :=
        mul_nonneg (by positivity) hivl.le
      linarith
    · have hiC : (i : ℤ) < ⌈(hi + ivl - lo) / ivl⌉ := by omega
      have hiq : (i : ℚ) + 1 ≤ (⌈(hi + ivl - lo) / ivl⌉ : ℚ) := by
        exact_mod_cast hiC
      have hCx : ((⌈(hi + ivl - lo) / ivl⌉ : ℤ) : ℚ)
          < (hi + ivl - lo) / ivl + 1 := Int.ceil_lt_add_one _
      have hix : (i : ℚ) < (hi + ivl - lo) / ivl := by linarith
      have hmul : (i : ℚ) * ivl < (hi + ivl - lo) / ivl * ivl :=
        mul_lt_mul_of_pos_right hix hivl
      rw [hxiv] at hmul
      linarith
  · rw [harange, getLastD_map_range _ _ hN1]
    have hNC : ((⌈(hi + ivl - lo) / ivl⌉.toNat : ℕ) : ℤ)
        = ⌈(hi + ivl - lo) / ivl⌉ := Int.toNat_of_nonneg (by omega)
    have hcast : ((⌈(hi + ivl - lo) / ivl⌉.toNat - 1 : ℕ) : ℚ)
        = ((⌈(hi + ivl - lo) / ivl⌉ : ℤ) : ℚ) - 1 := by
      rw [Nat.cast_sub hN1]
      have h2 : ((⌈(hi + ivl - lo) / ivl⌉.toNat : ℕ) : ℚ)
          = ((⌈(hi + ivl - lo) / ivl⌉ : ℤ) : ℚ) := by
        exact_mod_cast hNC
      rw [h2]
      norm_num
    have hxC : (hi + ivl - lo) / ivl
        ≤ ((⌈(hi + ivl - lo) / ivl⌉ : ℤ) : ℚ) := Int.le_ceil _
    have hmul : (hi + ivl - lo) / ivl * ivl
        ≤ ((⌈(hi + ivl - lo) / ivl⌉ : ℤ) : ℚ) * ivl :=
      mul_le_mul_of_nonneg_right hxC hivl.le
    rw [hxiv] at hmul
    rw [hcast]
    nlinarith
  · intro m hm
    have hx2 : (hi + ivl - lo) / ivl = (m : ℚ) + 1 := by
      rw [hm]
      field_simp
      ring
    have hC2 : ⌈(hi + ivl - lo) / ivl⌉ = (m : ℤ) + 1 := by
      have hcast2 : ((m : ℚ) + 1) = (((m : ℤ) + 1 : ℤ) : ℚ) := by
        push_cast
        ring
      rw [hx2, hcast2, Int.ceil_intCast]
    have hmN : m < ⌈(hi + ivl - lo) / ivl⌉.toNat := by omega
    rw [harange]
    exact List.mem_map.mpr ⟨m, List.mem_range.mpr hmN, hm.symm⟩

/-- Claim C3, amended: for a non-empty time channel the uniform grid is
`np.arange(min, max + interval, interval)`: the values
`min + i * interval` for `0 ≤ i < ceil((max + interval - min)/interval)`,
and the output time channel equals this grid.  Every grid point lies in
`[min, max + interval)` and the last grid point is at least the maximum,
but the grid ends at the maximum (inclusively, as the spec words it) only
when the span is an exact multiple of the interval — otherwise the last
grid point strictly exceeds the maximum. -/
theorem equidist_grid_arange (cv : ChanMap) (tv : List ℚ) (ivl lo hi : ℚ)
    (out : ChanMap) (a b : Nat)
    (htime : lookupKey timeKey cv = some tv) (htv : tv ≠ [])
    (hivl : 0 < ivl)
    (hlo : lo = listMin (uniqueSorted tv))
    (hhi : hi = listMax (uniqueSorted tv))
    (happ : applyEquidistancing cv ivl = some (out, a, b)) :
    lookupKey timeKey out = some (arangeQ lo (hi + ivl) ivl) ∧
    arangeQ lo (hi + ivl) ivl
      = (List.range (⌈(hi + ivl - lo) / ivl⌉.toNat)).map
          (fun (i : Nat) => lo + (i : ℚ) * ivl) ∧
    (∀ x ∈ arangeQ lo (hi + ivl) ivl, lo ≤ x ∧ x < hi + ivl) ∧
    hi ≤ (arangeQ lo (hi + ivl) ivl).getLastD lo ∧
    (∀ msteps : Nat, hi = lo + (msteps : ℚ) * ivl →
      hi ∈ arangeQ lo (hi + ivl) ivl) := by
  have hle : lo ≤ hi := by
    rw [hlo, hhi]
    exact listMin_le_listMax _ (uniqueSorted_ne_nil htv)
  obtain ⟨hp1, hp2, hp3, hp4⟩ := arangeQ_props lo hi ivl hivl hle
  obtain ⟨mvd, hmvd, hout, -, -⟩ :=
    applyEquidistancing_shape cv ivl tv out a b htime htv happ
  refine ⟨?_, hp1, hp2, hp3, hp4⟩
  rw [hout, hlo, hhi]
  rw [lookupKey_none_append]
  · unfold lookupKey
    rw [if_pos rfl]
  · intro e he
    obtain ⟨e0, he0, rfl⟩ := List.mem_map.mp he
    exact meanValues_keys cv (uniqueIndices tv) mvd hmvd e0 he0

/-- Claim C3 witness: time channel `[0, 2]` with interval 1 — the span is
an exact multiple of the interval, so the grid `[0, 1, 2]` runs from the
minimum to the maximum inclusive and is stored as the output time
channel. -/
theorem equidist_grid_arange_witness :
    lookupKey timeKey [(angleKey, [(4 : ℚ), 6, 8]), (timeKey, [0, 1, 2])]
      = some [(0 : ℚ), 1, 2] := by
  have h := (equidist_grid_arange [(timeKey, [0, 2]), (angleKey, [4, 8])]
    [0, 2] 1 (listMin (uniqueSorted [0, 2])) (listMax (uniqueSorted [0, 2]))
    [(angleKey, [4, 6, 8]), (timeKey, [0, 1, 2])] 2 3
    rfl (by decide) (by norm_num) rfl rfl
    (by norm_num [applyEquidistancing, uniqueSorted, uniqueIndices,
      firstIdxOf, meanValues, gatherIdx, arangeQ, npInterp, interpOne,
      listMin, listMax, lookupKey, timeKey, angleKey, List.insertionSort,
      List.orderedInsert, List.dedup, List.pwFilter, List.findIdx,
      List.findIdx.go, List.range_succ, Int.toNat,
      (show ("angle" : String) ≠ "time" by decide)])).1
  rw [h]
  norm_num [arangeQ, listMin, listMax, uniqueSorted, List.insertionSort,
    List.orderedInsert, List.dedup, List.pwFilter, Int.toNat,
    List.range_succ]

/-- Claim C3 counterexample: time channel `[0, 5]` with interval 2 — the
code grid `[0, 2, 4, 6]` is the output time channel, but the set of
multiples of the interval between the minimum and the maximum inclusive
is `[0, 2, 4]`: the grid overshoots the maximum. -/
theorem equidist_grid_counterexample :
    applyEquidistancing [(timeKey, [0, 5]), (torqueKey, [3, 5])] 2
      = some ([(torqueKey, [3, 19/5, 23/5, 5]), (timeKey, [0, 2, 4, 6])],
          2, 4) ∧
    specTimeGrid 2 (listMin (uniqueSorted [0, 5]))
        (listMax (uniqueSorted [0, 5])) = [0, 2, 4] ∧
    ([(0 : ℚ), 2, 4, 6]) ≠ [0, 2, 4] := by
  have h4 : ⌈(7 : ℚ) / 2⌉ = (4 : ℤ) := by
    rw [Int.ceil_eq_iff] <;> norm_num
  have h5 : ⌊(5 : ℚ) / 2⌋ = (2 : ℤ) := by
    rw [Int.floor_eq_iff] <;> norm_num
  have h6 : Int.toNat 4 = 4 := rfl
  have h7 : Int.toNat 2 = 2 := rfl
  refine ⟨?_, ?_, by decide⟩
  · norm_num [applyEquidistancing, uniqueSorted, uniqueIndices,
      firstIdxOf, meanValues, gatherIdx, arangeQ, npInterp, interpOne,
      listMin, listMax, lookupKey, timeKey, torqueKey, List.insertionSort,
      List.orderedInsert, List.dedup, List.pwFilter, List.findIdx,
      List.findIdx.go, List.range_succ, h4, h6,
      (show ("torque" : String) ≠ "time" by decide)]
  · norm_num [specTimeGrid, uniqueSorted, listMin, listMax,
      List.insertionSort, List.orderedInsert, List.dedup, List.pwFilter,
      h5, h7, List.range_succ, List.filter]

/-! ### C6, C7, C8: the splitter -/

lemma cons_set_perm {α : Type*} (t : List α) (k : Nat) (x b : α)
    (hb : t.get? k = some b) : (b :: t.set k x).Perm (x :: t) := by
  induction t generalizing k with
  | nil => simp at hb
  | cons y t2 ih =>
    cases k with
    | zero =>
      rw [List.get?_cons_zero] at hb
      have hby := Option.some.inj hb
      subst hby
      rw [List.set_cons_zero]
      exact List.Perm.swap x y t2
    | succ k2 =>
      rw [List.get?_cons_succ] at hb
      rw [List.set_cons_succ]
      exact (List.Perm.swap y b _).trans
        (((ih k2 hb).cons y).trans (List.Perm.swap x y t2))

lemma set_set_perm {α : Type*} (l : List α) (i j : Nat) (a b : α)
    (hi : l.get? i = some a) (hj : l.get? j = some b) :
    ((l.set i b).set j a).Perm l := by
  induction l generalizing i j with
  | nil => simp at hi
  | cons x t ih =>
    cases i with
    | zero =>
      rw [List.get?_cons_zero] at hi
      have hxa := Option.some.inj hi
      subst hxa
      cases j with
      | zero =>
        rw [List.get?_cons_zero] at hj
        have hxb := Option.some.inj hj
        subst hxb
        rw [List.set_cons_zero, List.set_cons_zero]
      | succ k =>
        rw [List.get?_cons_succ] at hj
        rw [List.set_cons_zero, List.set_cons_succ]
        exact cons_set_perm t k x b hj
    | succ m =>
      rw [List.get?_cons_succ] at hi
      cases j with
      | zero =>
        rw [List.get?_cons_zero] at hj
        have hxb := Option.some.inj hj
        subst hxb
        rw [List.set_cons_succ, List.set_cons_zero]
        exact cons_set_perm t m x a hi
      | succ k =>
        rw [List.get?_cons_succ] at hj
        rw [List.set_cons_succ, List.set_cons_succ]
        exact (ih m k hi hj).cons x

lemma listSwap_perm {α : Type*} (l : List α) (i j : Nat) :
    (listSwap l i j).Perm l := by
  unfold listSwap
  cases hi : l.get? i with
  | none => exact List.Perm.refl l
  | some a =>
    cases hj : l.get? j with
    | none => exact List.Perm.refl l
    | some b => exact set_set_perm l i j a b hi hj

lemma shuffleFold_perm {α : Type*} (idxs : List Nat) :
    ∀ acc : List α × Nat, (idxs.foldl shuffleStep acc).1.Perm acc.1 := by
  induction idxs with
  | nil => intro acc; exact List.Perm.refl _
  | cons i is ih =>
    intro acc
    rw [List.foldl_cons]
    exact (ih (shuffleStep acc i)).trans (listSwap_perm acc.1 i _)

lemma shuffleList_perm {α : Type*} (st : Nat) (l : List α) :
    (shuffleList st l).1.Perm l :=
  shuffleFold_perm _ (l, st)

lemma gatherIdx_length {α : Type*} (values : List α) (idx : List Nat)
    (r : List α) (h : gatherIdx values idx = some r) :
    r.length = idx.length := by
  induction idx generalizing r with
  | nil =>
    unfold gatherIdx at h
    cases h
    rfl
  | cons i is ih =>
    unfold gatherIdx at h
    cases hv : values.get? i with
    | none => rw [hv] at h; simp at h
    | some v =>
      rw [hv] at h
      cases hrest : gatherIdx values is with
      | none => rw [hrest] at h; simp at h
      | some r2 =>
        rw [hrest] at h
        simp at h
        rw [← h]
        simp [ih r2 hrest]

lemma shuffleRows_isSome {α : Type*} (data : List (List α)) (idx : List Nat)
    (h : ∀ row ∈ data, ∀ i ∈ idx, i < row.length) :
    ∃ res, shuffleRows data idx = some res := by
  induction data with
  | nil => exact ⟨[], rfl⟩
  | cons r rs ih =>
    obtain ⟨res2, hres2⟩ := ih (fun row hrow => h row (List.mem_cons_of_mem _ hrow))
    obtain ⟨g, hg⟩ := gatherIdx_isSome r idx (h r (List.mem_cons_self _ _))
    refine ⟨g :: res2, ?_⟩
    unfold shuffleRows
    rw [hg, hres2]
    rfl

lemma shuffleRows_get? {α : Type*} (data : List (List α)) (idx : List Nat)
    (res : List (List α)) (h : shuffleRows data idx = some res) :
    ∀ (j : Nat) (row : List α), data.get? j = some row →
      ∃ g, res.get? j = some g ∧ gatherIdx row idx = some g := by
  induction data generalizing res with
  | nil => intro j row hj; simp at hj
  | cons r rs ih =>
    intro j row hj
    unfold shuffleRows at h
    cases hg : gatherIdx r idx with
    | none => rw [hg] at h; simp at h
    | some g =>
      rw [hg] at h
      cases hrest : shuffleRows rs idx with
      | none => rw [hrest] at h; simp at h
      | some res2 =>
        rw [hrest] at h
        simp at h
        cases j with
        | zero =>
          rw [List.get?_cons_zero] at hj
          cases hj
          exact ⟨g, by rw [← h, List.get?_cons_zero], hg⟩
        | succ j2 =>
          rw [List.get?_cons_succ] at hj
          obtain ⟨g2, hg2, hgath2⟩ := ih res2 hrest j2 row hj
          exact ⟨g2, by rw [← h, List.get?_cons_succ]; exact hg2, hgath2⟩

lemma shuffleRows_mem {α : Type*} (data : List (List α)) (idx : List Nat)
    (res : List (List α)) (h : shuffleRows data idx = some res) :
    ∀ g ∈ res, ∃ row ∈ data, gatherIdx row idx = some g := by
  induction data generalizing res with
  | nil =>
    unfold shuffleRows at h
    cases h
    intro g hg
    simp at hg
  | cons r rs ih =>
    unfold shuffleRows at h
    cases hg0 : gatherIdx r idx with
    | none => rw [hg0] at h; simp at h
    | some g0 =>
      rw [hg0] at h
      cases hrest : shuffleRows rs idx with
      | none => rw [hrest] at h; simp at h
      | some res2 =>
        rw [hrest] at h
        simp at h
        intro g hg
        rw [← h] at hg
        rcases List.mem_cons.mp hg with h1 | h1
        · exact ⟨r, List.mem_cons_self _ _, h1 ▸ hg0⟩
        · obtain ⟨row, hrow, hgath⟩ := ih res2 hrest g h1
          exact ⟨row, List.mem_cons_of_mem _ hrow, hgath⟩

lemma flattenData_eq {α : Type*} (data : List (List α)) :
    flattenData data = data := by
  simp [flattenData]

/-- Claim C6: two runs of `apply_split` with the same seed and the same
data produce identical results whatever the prior generator state —
`random.seed(split_seed)` replaces the whole generator state by a pure
function of the seed. -/
theorem split_seed_deterministic {α : Type*} (data : List (List α))
    (sr : Option ℚ) (s : ℤ) (st1 st2 : Nat) :
    applySplit data sr (some s) st1 = applySplit data sr (some s) st2 := rfl

/-- Claim C7: `apply_split` applies one and the same permutation of
record indices to every channel buffer and to the label buffer (the last
row): there is a single index list, a permutation of `range n`, such that
the k-th post-shuffle element of every row is that row's element at the
common index `idx[k]`. -/
theorem split_same_permutation {α : Type*} (data : List (List α))
    (s : Option ℤ) (st : Nat) (n : Nat)
    (hne : data ≠ [])
    (hn : (data.headD []).length = n)
    (hlen : ∀ row ∈ data, row.length = n) :
    ∃ (idx : List Nat) (res : List (List α)) (st2 : Nat),
      idx.Perm (List.range n) ∧
      shuffleRows data idx = some res ∧
      applySplit data none s st
        = some (.split2 (flattenData res).dropLast
            ((flattenData res).getLastD []), st2) ∧
      (∀ (j : Nat) (row : List α), data.get? j = some row →
        ∃ srow, res.get? j = some srow ∧
          ∀ (k i : Nat), idx.get? k = some i →
            srow.get? k = row.get? i) := by
  cases data with
  | nil => exact absurd rfl hne
  | cons d ds =>
    have hdn : d.length = n := by simpa using hn
    have hperm : ((shuffleList (seedState s st)
        (List.range d.length)).1).Perm (List.range d.length) :=
      shuffleList_perm _ _
    have hlt : ∀ row ∈ d :: ds,
        ∀ i ∈ (shuffleList (seedState s st) (List.range d.length)).1,
          i < row.length := by
      intro row hrow i hi
      have h2 := List.mem_range.mp (hperm.mem_iff.mp hi)
      rw [hlen row hrow, ← hdn]
      exact h2
    obtain ⟨res, hres⟩ := shuffleRows_isSome _ _ hlt
    refine ⟨(shuffleList (seedState s st) (List.range d.length)).1, res,
      (shuffleList (seedState s st) (List.range d.length)).2,
      by rw [← hdn]; exact hperm, hres, ?_, ?_⟩
    · simp only [applySplit]
      rw [hres]
    · intro j row hj
      obtain ⟨g, hg, hgath⟩ := shuffleRows_get? _ _ _ hres j row hj
      exact ⟨g, hg, fun k i hk => gatherIdx_get? row _ g hgath k i hk⟩

/-- Claim C7 witness: on a concrete two-row buffer the splitter runs and
returns the 2-tuple shape. -/
theorem split_same_permutation_witness :
    (applySplit [[(1 : ℚ), 2], [10, 20]] none (some 5) 0).isSome = true := by
  obtain ⟨idx, res, st2, hperm, hres, happ, halign⟩ :=
    split_same_permutation [[(1 : ℚ), 2], [10, 20]] (some 5) 0 2
      (by decide) rfl (by decide)
  rw [happ]
  rfl

/-- Claim C8: with a ratio `r ∈ (0, 1)` the splitter takes the first
`floor(N * r)` permuted entries of every row as the training part and the
rest as the testing part, so each channel's train and test lengths sum to
`N`, and likewise for the labels (the last row). -/
theorem split_ratio_partition {α : Type*} (data : List (List α)) (r : ℚ)
    (s : Option ℤ) (st : Nat) (n : Nat)
    (hne : data ≠ [])
    (hn : (data.headD []).length = n)
    (hlen : ∀ row ∈ data, row.length = n)
    (hr0 : 0 < r) (hr1 : r < 1) :
    ∃ (idx : List Nat) (res : List (List α)) (st2 : Nat),
      idx.Perm (List.range n) ∧
      shuffleRows data idx = some res ∧
      applySplit data (some r) s st
        = some (.split4
            (((flattenData res).map
                (fun v => v.take ⌊(n : ℚ) * r⌋.toNat)).dropLast)
            (((flattenData res).map
                (fun v => v.drop ⌊(n : ℚ) * r⌋.toNat)).dropLast)
            (((flattenData res).map
                (fun v => v.take ⌊(n : ℚ) * r⌋.toNat)).getLastD [])
            (((flattenData res).map
                (fun v => v.drop ⌊(n : ℚ) * r⌋.toNat)).getLastD []), st2) ∧
      ⌊(n : ℚ) * r⌋.toNat ≤ n ∧
      ⌊(n : ℚ) * r⌋.toNat + (n - ⌊(n : ℚ) * r⌋.toNat) = n ∧
      (∀ row ∈ (flattenData res).map (fun v => v.take ⌊(n : ℚ) * r⌋.toNat),
        row.length = ⌊(n : ℚ) * r⌋.toNat) ∧
      (∀ row ∈ (flattenData res).map (fun v => v.drop ⌊(n : ℚ) * r⌋.toNat),
        row.length = n - ⌊(n : ℚ) * r⌋.toNat) := by
  cases data with
  | nil => exact absurd rfl hne
  | cons d ds =>
    have hdn : d.length = n := by simpa using hn
    have hperm : ((shuffleList (seedState s st)
        (List.range d.length)).1).Perm (List.range d.length) :=
      shuffleList_perm _ _
    have hlt : ∀ row ∈ d :: ds,
        ∀ i ∈ (shuffleList (seedState s st) (List.range d.length)).1,
          i < row.length := by
      intro row hrow i hi
      have h2 := List.mem_range.mp (hperm.mem_iff.mp hi)
      rw [hlen row hrow, ← hdn]
      exact h2
    obtain ⟨res, hres⟩ := shuffleRows_isSome _ _ hlt
    have hreslen : ∀ g ∈ res, g.length = n := by
      intro g hg
      obtain ⟨row, hrow, hgath⟩ := shuffleRows_mem _ _ _ hres g hg
      rw [gatherIdx_length _ _ _ hgath, hperm.length_eq,
        List.length_range, hdn]
    have hkn : ⌊(n : ℚ) * r⌋.toNat ≤ n := by
      have h1 : (n : ℚ) * r ≤ (n : ℚ) := by
        calc (n : ℚ) * r ≤ (n : ℚ) * 1 :=
          mul_le_mul_of_nonneg_left hr1.le (Nat.cast_nonneg n)
        _ = (n : ℚ) := mul_one _
      have h2 : ⌊(n : ℚ) * r⌋ ≤ ⌊(n : ℚ)⌋ := Int.floor_le_floor h1
      rw [Int.floor_natCast] at h2
      omega
    refine ⟨(shuffleList (seedState s st) (List.range d.length)).1, res,
      (shuffleList (seedState s st) (List.range d.length)).2,
      by rw [← hdn]; exact hperm, hres, ?_, hkn, by omega, ?_, ?_⟩
    · simp only [applySplit]
      rw [hres]
      simp only [hdn]
      rw [if_pos ⟨hr0, hr1⟩]
    · intro row hrow
      obtain ⟨v, hv, rfl⟩ := List.mem_map.mp hrow
      rw [flattenData_eq] at hv
      rw [List.length_take, hreslen v hv]
      omega
    · intro row hrow
      obtain ⟨v, hv, rfl⟩ := List.mem_map.mp hrow
      rw [flattenData_eq] at hv
      rw [List.length_drop, hreslen v hv]

/-- Claim C8 witness: splitting three rows of length 3 at ratio 2/3 with
a seed runs and produces the 4-tuple shape. -/
theorem split_ratio_partition_witness :
    (applySplit [[(1 : ℚ), 2, 3], [4, 5, 6], [10, 20, 30]]
        (some (2 / 3)) (some 1) 0).isSome = true := by
  obtain ⟨idx, res, st2, hperm, hres, happ, hrest⟩ :=
    split_ratio_partition [[(1 : ℚ), 2, 3], [4, 5, 6], [10, 20, 30]]
      (2 / 3) (some 1) 0 3 (by decide) rfl (by decide)
      (by norm_num) (by norm_num)
  rw [happ]
  rfl

/-! ### C10: in-place label binarization and aliasing -/

/-- Claim C10: with `result_format = "binary"` and
`return_format = "nested_list"`, `apply_conversion` mutates the input
container in place — only the label sublists (the last two entries of a
4-entry container, the last entry of a 2-entry container) are overwritten
with binarized copies, every other sublist and every other heap object is
untouched — and the returned container is the same address as the input,
not a fresh structure. -/
theorem convert_binary_inplace (h : Heap) (addr : Nat)
    (hshape : (h.mem addr).length = 4 ∨ (h.mem addr).length = 2) :
    ∃ h2 : Heap,
      applyConversion h addr binaryKey nestedKey = some (h2, addr) ∧
      (∀ a2, a2 ≠ addr → h2.mem a2 = h.mem a2) ∧
      (h2.mem addr).length = (h.mem addr).length ∧
      ((h.mem addr).length = 4 →
        (h2.mem addr).get? 0 = (h.mem addr).get? 0 ∧
        (h2.mem addr).get? 1 = (h.mem addr).get? 1 ∧
        (h2.mem addr).get? 2
          = some (convertToBinary ((h.mem addr).getD 2 [])) ∧
        (h2.mem addr).get? 3
          = some (convertToBinary ((h.mem addr).getD 3 []))) ∧
      ((h.mem addr).length = 2 →
        (h2.mem addr).get? 0 = (h.mem addr).get? 0 ∧
        (h2.mem addr).get? 1
          = some (convertToBinary ((h.mem addr).getD 1 []))) := by
  rcases hshape with h4 | h2len
  · refine ⟨⟨fun a => if a = addr then
        (((h.mem addr).set 2 (convertToBinary ((h.mem addr).getD 2 []))).set 3
          (convertToBinary
            (((h.mem addr).set 2
              (convertToBinary ((h.mem addr).getD 2 []))).getD 3 [])))
        else h.mem a, h.next⟩, ?_, ?_, ?_, ?_, ?_⟩
    · simp [applyConversion, binaryKey, nestedKey, numpyKey, rawKey, h4]
    · intro a2 ha2
      simp [ha2]
    · simp [h4, List.length_set]
    · intro _
      have hmem2 : (⟨fun a => if a = addr then
          (((h.mem addr).set 2 (convertToBinary ((h.mem addr).getD 2 []))).set 3
            (convertToBinary
              (((h.mem addr).set 2
                (convertToBinary ((h.mem addr).getD 2 []))).getD 3 [])))
          else h.mem a, h.next⟩ : Heap).mem addr
          = (((h.mem addr).set 2
              (convertToBinary ((h.mem addr).getD 2 []))).set 3
            (convertToBinary
              (((h.mem addr).set 2
                (convertToBinary ((h.mem addr).getD 2 []))).getD 3 []))) := by
        simp
      have hd1 : ((h.mem addr).set 2
          (convertToBinary ((h.mem addr).getD 2 []))).getD 3 []
          = (h.mem addr).getD 3 [] := by
        simp only [List.getD]
        rw [List.get?_set_ne _ _ (by omega)]
      refine ⟨?_, ?_, ?_, ?_⟩
      · rw [hmem2, List.get?_set_ne _ _ (by omega),
          List.get?_set_ne _ _ (by omega)]
      · rw [hmem2, List.get?_set_ne _ _ (by omega),
          List.get?_set_ne _ _ (by omega)]
      · rw [hmem2, List.get?_set_ne _ _ (by omega),
          List.get?_set_eq_of_lt _ (by rw [h4]; omega)]
      · rw [hmem2, hd1, List.get?_set_eq_of_lt _
          (by simp only [List.length_set]; rw [h4]; omega)]
    · intro h2len
      rw [h4] at h2len
      omega
  · refine ⟨⟨fun a => if a = addr then
        ((h.mem addr).set 1 (convertToBinary ((h.mem addr).getD 1 [])))
        else h.mem a, h.next⟩, ?_, ?_, ?_, ?_, ?_⟩
    · simp [applyConversion, binaryKey, nestedKey, numpyKey, rawKey, h2len]
    · intro a2 ha2
      simp [ha2]
    · simp [List.length_set]
    · intro h4
      rw [h2len] at h4
      omega
    · intro _
      have hmem2 : (⟨fun a => if a = addr then
          ((h.mem addr).set 1 (convertToBinary ((h.mem addr).getD 1 [])))
          else h.mem a, h.next⟩ : Heap).mem addr
          = ((h.mem addr).set 1
              (convertToBinary ((h.mem addr).getD 1 []))) := by
        simp
      refine ⟨?_, ?_⟩
      · rw [hmem2, List.get?_set_ne _ _ (by omega)]
      · rw [hmem2, List.get?_set_eq_of_lt _ (by rw [h2len]; omega)]

/-- Claim C10 witness: a concrete 2-entry container whose label entry
`["OK", "NOK"]` is binarized in place, the returned address being the
input address 0. -/
theorem convert_binary_inplace_witness :
    (applyConversion
        ⟨fun _ => [[PyVal.num 3, PyVal.num 4],
                   [PyVal.str "OK", PyVal.str "NOK"]], 0⟩
        0 binaryKey nestedKey).map
      (fun p => ((p.1.mem 0).get? 1, p.2))
      = some (some [PyVal.num 0, PyVal.num 1], 0) := by
  obtain ⟨h2, happ, hframe, hlen, hc4, hc2⟩ :=
    convert_binary_inplace
      ⟨fun _ => [[PyVal.num 3, PyVal.num 4],
                 [PyVal.str "OK", PyVal.str "NOK"]], 0⟩
      0 (Or.inr rfl)
  rw [happ]
  obtain ⟨-, hlab⟩ := hc2 rfl
  simp only [Option.map_some']
  rw [hlab]
  rfl

end ScrewData
